import Mathlib

/-!
Verification of the settings subsystem of the ticketing tool.

The development shallowly embeds the configuration-store layer
(`app/core/store.py`), the per-key validator (`app/core/config.py`), the
admin mutation protocol (`app/api/routes/admin.py`) and the bearer-token
role check (`app/core/security.py`).  Stores are modelled as association
lists, file contents as lists of characters, and the HTTP handlers as pure
functions returning a response together with the resulting store state.
-/

set_option maxRecDepth 4000

deriving instance DecidableEq for Except

/-- Single-quote character (ASCII 39). -/
def squote : Char := Char.ofNat 39

/-- Double-quote character (ASCII 34). -/
def dquote : Char := Char.ofNat 34

/-- String consisting of one single quote, used to build the exact error
message texts of the Python source. -/
def quoteMark : String := String.mk [squote]

/-- Lookup in a Python-dict-like association list: the value of the first
binding of the key. -/
def dictGet {α β : Type} [DecidableEq α] : List (α × β) → α → Option β
  | [], _ => none
  | p :: rest, k => if p.1 = k then some p.2 else dictGet rest k

/-- Python-dict assignment `d[k] = v`: replace the binding in place when the
key is present, append a fresh binding otherwise (Python dicts preserve
insertion order). -/
def dictInsert {α β : Type} [DecidableEq α] : List (α × β) → α → β → List (α × β)
  | [], k, v => [(k, v)]
  | p :: rest, k, v => if p.1 = k then (k, v) :: rest else p :: dictInsert rest k v

/-- Keys of an association list. -/
def dictKeys {α β : Type} (m : List (α × β)) : List α := m.map Prod.fst

/-! ### Values and per-field validation (`app/core/config.py`) -/

/-- JSON-ish runtime values arriving at the admin API (`Any` in the source). -/
inductive Val where
  | vStr (s : String)
  | vInt (n : Int)
  | vBool (b : Bool)
  | vList (xs : List String)
deriving DecidableEq

/-- Valid logging levels, from the `LogLevel` enumeration. -/
def logLevels : List String := ["DEBUG", "INFO", "WARNING", "ERROR", "CRITICAL"]

/-- Declared type of a `Settings` field. -/
inductive FieldType where
  | tStr
  | tInt
  | tBool
  | tLogLevel
  | tStrList
deriving DecidableEq

/-- Python whitespace recognised by `str.strip` / `str.splitlines` for the
ASCII range handled here. -/
def isPySpace (c : Char) : Bool :=
  c == ' ' || c == '\t' || c == '\n' || c == '\r' || c == Char.ofNat 11 || c == Char.ofNat 12

/-- Leading-whitespace removal. -/
def stripLeft (cs : List Char) : List Char := cs.dropWhile isPySpace

/-- Trailing-whitespace removal. -/
def stripRight (cs : List Char) : List Char := (cs.reverse.dropWhile isPySpace).reverse

/-- Embedding of Python `str.strip()`. -/
def pyStrip (cs : List Char) : List Char := stripRight (stripLeft cs)

/-- ASCII lowercasing of one character (model of `str.lower` for the ASCII
keys and values handled here). -/
def lowerChar (c : Char) : Char :=
  if 65 ≤ c.toNat ∧ c.toNat ≤ 90 then Char.ofNat (c.toNat + 32) else c

/-- ASCII lowercasing of a string. -/
def lowerAscii (s : String) : String := String.mk (s.data.map lowerChar)

/-- Digits of a decimal numeral, most significant first. -/
def digitsToNat? : List Char → Option Nat
  | [] => none
  | cs =>
    cs.foldl
      (fun acc c =>
        match acc with
        | none => none
        | some n => if c.isDigit then some (n * 10 + (c.toNat - 48)) else none)
      (some 0)

/-- Model of Python `int(...)` on a stripped string: optional sign followed
by at least one decimal digit. -/
def parseInt? (cs : List Char) : Option Int :=
  match cs with
  | [] => none
  | c :: rest =>
    if c = '-' then (digitsToNat? rest).map (fun n => -(n : Int))
    else if c = '+' then (digitsToNat? rest).map (fun n => (n : Int))
    else (digitsToNat? cs).map (fun n => (n : Int))

/-- Truthy/falsy strings accepted by pydantic when coercing a string to a
boolean field. -/
def strToBool? (s : String) : Option Bool :=
  let l := lowerAscii s
  if l = "true" ∨ l = "1" ∨ l = "yes" ∨ l = "on" ∨ l = "t" ∨ l = "y" then some true
  else if l = "false" ∨ l = "0" ∨ l = "no" ∨ l = "off" ∨ l = "f" ∨ l = "n" then some false
  else none

/-- Model of pydantic coercion of a single value against a declared field
type, as exercised by `validate_setting_value` through its ad-hoc
single-field model.  Error texts are human-readable reasons. -/
def coerceVal : FieldType → Val → Except String Val
  | .tStr, .vStr s => .ok (.vStr s)
  | .tStr, _ => .error "Input should be a valid string"
  | .tInt, .vInt n => .ok (.vInt n)
  | .tInt, .vStr s =>
    match parseInt? (pyStrip s.data) with
    | some n => .ok (.vInt n)
    | none => .error "Input should be a valid integer, unable to parse string as an integer"
  | .tInt, _ => .error "Input should be a valid integer"
  | .tBool, .vBool b => .ok (.vBool b)
  | .tBool, .vStr s =>
    match strToBool? s with
    | some b => .ok (.vBool b)
    | none => .error "Input should be a valid boolean, unable to interpret input"
  | .tBool, .vInt n =>
    if n = 0 then .ok (.vBool false)
    else if n = 1 then .ok (.vBool true)
    else .error "Input should be a valid boolean, unable to interpret input"
  | .tBool, _ => .error "Input should be a valid boolean"
  | .tLogLevel, .vStr s =>
    if s ∈ logLevels then .ok (.vStr s)
    else .error "Input should be DEBUG, INFO, WARNING, ERROR or CRITICAL"
  | .tLogLevel, _ => .error "Input should be DEBUG, INFO, WARNING, ERROR or CRITICAL"
  | .tStrList, .vList xs => .ok (.vList xs)
  | .tStrList, _ => .error "Input should be a valid list"

/-- One declared field of the `Settings` model: field name, external alias
and declared type. -/
structure SettingsField where
  fname : String
  falias : String
  ftype : FieldType
deriving DecidableEq

/-- The declared fields of `Settings` (`app/core/config.py`), in
declaration order. -/
def settingsFields : List SettingsField :=
  [⟨"log_level", "LOG_LEVEL", .tLogLevel⟩,
   ⟨"log_file_path", "LOG_FILE_PATH", .tStr⟩,
   ⟨"log_file_rotation", "LOG_FILE_ROTATION", .tStr⟩,
   ⟨"log_file_retention", "LOG_FILE_RETENTION", .tStr⟩,
   ⟨"log_file_compression", "LOG_FILE_COMPRESSION", .tStr⟩,
   ⟨"host", "HOST", .tStr⟩,
   ⟨"port", "PORT", .tInt⟩,
   ⟨"reload", "RELOAD", .tBool⟩,
   ⟨"app_name", "APP_NAME", .tStr⟩,
   ⟨"app_description", "APP_DESCRIPTION", .tStr⟩,
   ⟨"app_version", "APP_VERSION", .tStr⟩,
   ⟨"admin_jwt_secret", "ADMIN_JWT_SECRET", .tStr⟩,
   ⟨"user_jwt_secret", "USER_JWT_SECRET", .tStr⟩,
   ⟨"jwt_algorithm", "JWT_ALGORITHM", .tStr⟩,
   ⟨"immutable_keys", "IMMUTABLE_KEYS", .tStrList⟩]

/-- The external aliases of all declared fields. -/
def settingsAliases : List String := settingsFields.map (fun f => f.falias)

/-- First field whose alias equals the key (the `for fname, finfo in
fields.items()` loop of `validate_setting_value`). -/
def findAliasIn : List SettingsField → String → Option SettingsField
  | [], _ => none
  | f :: rest, key => if f.falias = key then some f else findAliasIn rest key

/-- Field of the given (field) name, used by the `snake = key.lower()`
fallback of `validate_setting_value`. -/
def findNameIn : List SettingsField → String → Option SettingsField
  | [], _ => none
  | f :: rest, key => if f.fname = key then some f else findNameIn rest key

/-- Resolution of a key by declared alias. -/
def findByAlias (key : String) : Option SettingsField := findAliasIn settingsFields key

/-- Resolution of a key by field name. -/
def findByName (key : String) : Option SettingsField := findNameIn settingsFields key

/-- Wrapping of a coercion failure into the `ValueError` text raised by
`validate_setting_value`. -/
def wrapValidationError (key : String) : Except String Val → Except String Val
  | .ok w => .ok w
  | .error e => .error ("Invalid value for setting " ++ quoteMark ++ key ++ quoteMark ++ ": " ++ e)

/-- Embedding of `validate_setting_value` (`app/core/config.py`): resolve
the key by alias, fall back to the lowercased key as field name, return the
raw value for unknown keys, otherwise coerce against the declared type. -/
def validate_setting_value (key : String) (v : Val) : Except String Val :=
  match findByAlias key with
  | some f => wrapValidationError key (coerceVal f.ftype v)
  | none =>
    match findByName (lowerAscii key) with
    | some f => wrapValidationError key (coerceVal f.ftype v)
    | none => .ok v

/-- Python `str()` on a validated value. -/
def stringifyVal : Val → String
  | .vStr s => s
  | .vInt n => toString n
  | .vBool b => if b then "True" else "False"
  | .vList xs => "[" ++ String.intercalate ", " (xs.map (fun s => quoteMark ++ s ++ quoteMark)) ++ "]"

/-- Loop body of `_validate_and_update_settings`: accumulate the validated
updates and the per-key error reasons into two dicts. -/
def vauLoop : List (String × Val) → List (String × String) → List (String × String) →
    List (String × String) × List (String × String)
  | [], oks, errs => (oks, errs)
  | (k, v) :: rest, oks, errs =>
    match validate_setting_value k v with
    | .ok w => vauLoop rest (dictInsert oks k (stringifyVal w)) errs
    | .error e => vauLoop rest oks (dictInsert errs k e)

/-- Embedding of `_validate_and_update_settings` (`app/api/routes/admin.py`):
validate every pair, and raise a single 400 carrying all error reasons when
any pair fails. -/
def validateAndUpdateSettings (updates : List (String × Val)) :
    Except (List (String × String)) (List (String × String)) :=
  let r := vauLoop updates [] []
  if r.2 = [] then .ok r.1 else .error r.2

/-- Validation failures of a batch, each with the offending key and its
reason, in batch order (specification-side description of the aggregated
error). -/
def valErrors (updates : List (String × Val)) : List (String × String) :=
  updates.filterMap (fun p =>
    match validate_setting_value p.1 p.2 with
    | .error e => some (p.1, e)
    | .ok _ => none)

/-- Successfully validated pairs of a batch, stringified, in batch order. -/
def valOks (updates : List (String × Val)) : List (String × String) :=
  updates.filterMap (fun p =>
    match validate_setting_value p.1 p.2 with
    | .ok w => some (p.1, stringifyVal w)
    | .error _ => none)

/-! ### Quote stripping (`_strip_quotes`, `app/core/store.py`) -/

/-- Embedding of `_strip_quotes` on character lists: remove one layer of
matching surrounding single or double quotes (`value[1:-1]`). -/
def stripQuotesL (v : List Char) : List Char :=
  if 2 ≤ v.length then
    if (v.head? = some dquote ∧ v.getLast? = some dquote) ∨
       (v.head? = some squote ∧ v.getLast? = some squote) then
      (v.drop 1).dropLast
    else v
  else v

/-- String form of `_strip_quotes`. -/
def stripQuotes (s : String) : String := String.mk (stripQuotesL s.data)

/-! ### Table-backed store (`DBStore`, `app/core/store.py`) -/

/-- One row of the `ConfigEntry` table.  Timestamps are abstract ticks. -/
structure ConfigEntry where
  key : String
  value : String
  valueType : String
  description : Option String
  isImmutable : Bool
  createdAt : Nat
  updatedAt : Nat
deriving DecidableEq

/-- Row with the given primary key (`sess.get(ConfigEntry, k)`). -/
def findRow : List ConfigEntry → String → Option ConfigEntry
  | [], _ => none
  | r :: rest, k => if r.key = k then some r else findRow rest k

/-- Embedding of `DBStore.read_all`: every row as a key/value pair with one
layer of quotes stripped from the stored text. -/
def dbReadAll (rows : List ConfigEntry) : List (String × String) :=
  rows.map (fun r => (r.key, stripQuotes r.value))

/-- One iteration of `DBStore.write_many`: update the existing row unless it
is marked immutable (then the update is silently dropped), or insert a new
row with default type `"str"` and `immutable = false`. -/
def dbWriteOne (rows : List ConfigEntry) (k v : String) (now : Nat) : List ConfigEntry :=
  match findRow rows k with
  | some e =>
    if e.isImmutable then rows
    else rows.map (fun r => if r.key = k then { r with value := v, updatedAt := now } else r)
  | none =>
    rows ++ [{ key := k, value := v, valueType := "str", description := none,
               isImmutable := false, createdAt := now, updatedAt := now }]

/-- Embedding of `DBStore.write_many` over a batch of stringified updates. -/
def dbWriteMany (rows : List ConfigEntry) (updates : List (String × String)) (now : Nat) :
    List ConfigEntry :=
  match updates with
  | [] => rows
  | (k, v) :: rest => dbWriteMany (dbWriteOne rows k v now) rest now

/-- Whether the stored row for a key, when present, is not marked immutable
(so that a `write_many` update to the key is not dropped). -/
def immOk (rows : List ConfigEntry) (k : String) : Bool :=
  match findRow rows k with
  | some e => !e.isImmutable
  | none => true

/-! ### Legacy migration (`DBStore._ensure_migrations`) -/

/-- The underlying database file: the legacy key/value table when it exists,
and the rows of the rich `ConfigEntry` table.  The column-addition step of
the migration only alters the schema, never row data, so it does not appear
in the row-level model. -/
structure DBFile where
  legacy : Option (List (String × String))
  config : List ConfigEntry
deriving DecidableEq

/-- A legacy row copied across with default metadata. -/
def migrateLegacyRow (p : String × String) (now : Nat) : ConfigEntry :=
  { key := p.1, value := p.2, valueType := "str", description := none,
    isImmutable := false, createdAt := now, updatedAt := now }

/-- Embedding of `DBStore._ensure_migrations`: copy the legacy rows into the
rich table only when the legacy table exists and the rich table has no
rows. -/
def ensureMigrations (db : DBFile) (now : Nat) : DBFile :=
  match db.legacy with
  | none => db
  | some rows =>
    if db.config = [] then { db with config := rows.map (fun p => migrateLegacyRow p now) }
    else db

/-! ### Admin mutation protocol (`app/api/routes/admin.py`) -/

/-- Structured error payloads of the admin routes. -/
inductive Detail where
  | msg (s : String)
  | validationErrors (errs : List (String × String))
  | conflicts (ks : List String)
  | immutable (ks : List String)
  | missing (ks : List String)
deriving DecidableEq

/-- An `HTTPException`: status code and structured detail. -/
structure HttpError where
  status : Nat
  detail : Detail
deriving DecidableEq

/-- Success bodies of the mutation endpoints. -/
inductive AdminResp where
  | added (kv : List (String × String))
  | updated (kv : List (String × String))
deriving DecidableEq

/-- The pieces of the live `settings` object the admin routes consult. -/
structure AdminCtx where
  immutableKeys : List String
deriving DecidableEq

/-- Membership of a key in the store as seen by `_read_env_file`
(`key in env_values`). -/
def keyInStore (rows : List ConfigEntry) (k : String) : Bool :=
  (dictGet (dbReadAll rows) k).isSome

/-- Embedding of `_persist_and_reload_settings`: two `write_many` calls
(`write_settings_to_env` followed by `update_and_reload`), with any raised
persistence failure — abstracted by `ioError` — logged and re-raised as an
`HTTPException` whose status is 500 and whose detail is `str(e)`.  The
in-memory reload, the best-effort logging reconfiguration and the optional
`os.execv` restart do not touch the store. -/
def persistAndReload (rows : List ConfigEntry) (updates : List (String × String)) (now : Nat)
    (ioError : Option String) : Except HttpError (List ConfigEntry) :=
  match ioError with
  | some m => .error { status := 500, detail := .msg m }
  | none => .ok (dbWriteMany (dbWriteMany rows updates now) updates now)

/-- Embedding of `PUT /admin/settings/{key}` (`put_setting`): reject with
409 when the key already exists, with 403 when it is in the immutable
roster, with 400 on validation failure, then persist.  The response is
paired with the resulting store rows. -/
def put_setting (ctx : AdminCtx) (key : String) (value : Val) (rows : List ConfigEntry)
    (now : Nat) (ioError : Option String) : Except HttpError AdminResp × List ConfigEntry :=
  if keyInStore rows key then
    (.error { status := 409,
              detail := .msg ("Setting " ++ quoteMark ++ key ++ quoteMark ++
                " already exists. Use POST to update existing keys.") }, rows)
  else if key ∈ ctx.immutableKeys then
    (.error { status := 403,
              detail := .msg ("Setting " ++ quoteMark ++ key ++ quoteMark ++ " is immutable") }, rows)
  else
    match validateAndUpdateSettings [(key, value)] with
    | .error errs => (.error { status := 400, detail := .validationErrors errs }, rows)
    | .ok upd =>
      match persistAndReload rows upd now ioError with
      | .error e => (.error e, rows)
      | .ok rs => (.ok (.added upd), rs)

/-- Embedding of `POST /admin/settings/{key}` (`post_setting`): reject with
400 when the key is absent, with 403 when it is in the immutable roster,
with 400 on validation failure, then persist. -/
def post_setting (ctx : AdminCtx) (key : String) (value : Val) (rows : List ConfigEntry)
    (now : Nat) (ioError : Option String) : Except HttpError AdminResp × List ConfigEntry :=
  if !keyInStore rows key then
    (.error { status := 400,
              detail := .msg ("Setting " ++ quoteMark ++ key ++ quoteMark ++
                " is not present in the .env file; cannot update non-existing key") }, rows)
  else if key ∈ ctx.immutableKeys then
    (.error { status := 403,
              detail := .msg ("Setting " ++ quoteMark ++ key ++ quoteMark ++ " is immutable") }, rows)
  else
    match validateAndUpdateSettings [(key, value)] with
    | .error errs => (.error { status := 400, detail := .validationErrors errs }, rows)
    | .ok upd =>
      match persistAndReload rows upd now ioError with
      | .error e => (.error e, rows)
      | .ok rs => (.ok (.updated upd), rs)

/-- Keys of a bulk payload that already exist in the store
(`[k for k in payload.keys() if k in env_values]`). -/
def bulkConflicts (payload : List (String × Val)) (rows : List ConfigEntry) : List String :=
  (payload.map Prod.fst).filter (fun k => keyInStore rows k)

/-- Keys of a bulk payload that are absent from the store. -/
def bulkMissing (payload : List (String × Val)) (rows : List ConfigEntry) : List String :=
  (payload.map Prod.fst).filter (fun k => !keyInStore rows k)

/-- Keys of a bulk payload that are in the immutable roster. -/
def bulkBlocked (ctx : AdminCtx) (payload : List (String × Val)) : List String :=
  (payload.map Prod.fst).filter (fun k => decide (k ∈ ctx.immutableKeys))

/-- Embedding of `PUT /admin/settings` (`put_settings_bulk`): reject the
whole batch with 409 listing every conflicting key, then with 403 listing
every immutable key, then with 400 on validation failure; only then write. -/
def put_settings_bulk (ctx : AdminCtx) (payload : List (String × Val))
    (rows : List ConfigEntry) (now : Nat) (ioError : Option String) :
    Except HttpError AdminResp × List ConfigEntry :=
  let conflicts := bulkConflicts payload rows
  if conflicts ≠ [] then
    (.error { status := 409, detail := .conflicts conflicts }, rows)
  else
    let blocked := bulkBlocked ctx payload
    if blocked ≠ [] then
      (.error { status := 403, detail := .immutable blocked }, rows)
    else
      match validateAndUpdateSettings payload with
      | .error errs => (.error { status := 400, detail := .validationErrors errs }, rows)
      | .ok upd =>
        match persistAndReload rows upd now ioError with
        | .error e => (.error e, rows)
        | .ok rs => (.ok (.added upd), rs)

/-- Embedding of `POST /admin/settings` (`post_settings_bulk`): reject the
whole batch with 400 listing every missing key, then with 403 listing every
immutable key, then with 400 on validation failure; only then write. -/
def post_settings_bulk (ctx : AdminCtx) (payload : List (String × Val))
    (rows : List ConfigEntry) (now : Nat) (ioError : Option String) :
    Except HttpError AdminResp × List ConfigEntry :=
  let missing := bulkMissing payload rows
  if missing ≠ [] then
    (.error { status := 400, detail := .missing missing }, rows)
  else
    let blocked := bulkBlocked ctx payload
    if blocked ≠ [] then
      (.error { status := 403, detail := .immutable blocked }, rows)
    else
      match validateAndUpdateSettings payload with
      | .error errs => (.error { status := 400, detail := .validationErrors errs }, rows)
      | .ok upd =>
        match persistAndReload rows upd now ioError with
        | .error e => (.error e, rows)
        | .ok rs => (.ok (.updated upd), rs)

/-- Embedding of `_allowed_keys`: the merged view `{**env_values,
**model_values}` — raw store values overlaid by the in-memory model values
keyed by alias. -/
def allowedKeys (env model : List (String × String)) : List (String × String) :=
  model.foldl (fun m p => dictInsert m p.1 p.2) env

/-- Embedding of `GET /admin/settings/{key}` (`get_setting`): 404 when the
key is absent from the merged view, otherwise the single-pair body. -/
def get_setting (env model : List (String × String)) (key : String) :
    Except HttpError (String × String) :=
  match dictGet (allowedKeys env model) key with
  | some v => .ok (key, v)
  | none => .error { status := 404, detail := .msg "Setting not found" }

/-! ### Bearer-token role check (`app/core/security.py`) -/

/-- A bearer token as far as HMAC JWT semantics are observable: the secret
it was signed with, the optional `role` claim, and whether it is expired. -/
structure Token where
  secret : String
  role : Option String
  expired : Bool
deriving DecidableEq

/-- JWT secrets configured on the live settings. -/
structure SecCfg where
  adminSecret : String
  userSecret : String
deriving DecidableEq

/-- Result of `_try_decode_with_secret`: success with the payload, the
expired marker, or failure. -/
inductive TryResult where
  | success (role : Option String)
  | expiredErr
  | failed
deriving DecidableEq

/-- Embedding of `_try_decode_with_secret`: decoding succeeds exactly when
the signature verifies (the token was signed with the given secret); a
verified but expired token yields the expired marker. -/
def tryDecodeWithSecret (t : Token) (secret : String) : TryResult :=
  if t.secret = secret then
    if t.expired then .expiredErr else .success t.role
  else .failed

/-- Result of `_decode_token`: payload with its `_verified_with` tag,
expired marker, or rejection. -/
inductive Decoded where
  | payload (role : Option String) (verifiedWith : String)
  | expired
  | invalid
deriving DecidableEq

/-- Embedding of `_decode_token`: try the admin secret first, then the user
secret, propagating an expired marker from either attempt. -/
def decodeToken (cfg : SecCfg) (t : Token) : Decoded :=
  match tryDecodeWithSecret t cfg.adminSecret with
  | .success r => .payload r "admin"
  | .expiredErr => .expired
  | .failed =>
    match tryDecodeWithSecret t cfg.userSecret with
    | .success r => .payload r "user"
    | .expiredErr => .expired
    | .failed => .invalid

/-- Effective role used by `require_role`:
`payload.get("role") or payload.get("_verified_with")` — an absent or empty
(falsy) `role` claim falls back to the secret the token verified under. -/
def effectiveRole (role : Option String) (verifiedWith : String) : String :=
  match role with
  | some s => if s = "" then verifiedWith else s
  | none => verifiedWith

/-- Embedding of the dependency produced by `require_role`: 401 for an
invalid or expired token, 403 for an insufficient role, otherwise the
payload (role claim and verification tag). -/
def require_role (cfg : SecCfg) (required : String) (t : Token) :
    Except HttpError (Option String × String) :=
  match decodeToken cfg t with
  | .invalid => .error { status := 401, detail := .msg "Invalid token" }
  | .expired => .error { status := 401, detail := .msg "Token has expired" }
  | .payload role vw =>
    let r := effectiveRole role vw
    if required = "user" ∧ (r = "user" ∨ r = "admin") then .ok (role, vw)
    else if required = "admin" ∧ r = "admin" then .ok (role, vw)
    else .error { status := 403, detail := .msg "Insufficient permissions" }

/-! ### File-backed store (`EnvStore`, `app/core/store.py`) -/

/-- One step of splitting text into lines, consumed right to left. -/
def lineStep (c : Char) (acc : List (List Char)) : List (List Char) :=
  if c = '\n' then [] :: acc
  else
    match acc with
    | [] => [[c]]
    | l :: ls => (c :: l) :: ls

/-- Embedding of Python `str.splitlines()` for text whose only line
terminator is the newline character: split on newlines, with no trailing
empty line for text ending in a newline. -/
def splitLines (cs : List Char) : List (List Char) := cs.foldr lineStep []

/-- Embedding of `"\n".join(lines)`. -/
def joinLines : List (List Char) → List Char
  | [] => []
  | [l] => l
  | l :: l2 :: rest => l ++ '\n' :: joinLines (l2 :: rest)

/-- Boolean character inequality, for `takeWhile`/`dropWhile` splits. -/
def notEqChar (c : Char) : Char → Bool := fun a => !(a == c)

/-- Per-line body of `EnvStore.read_all`: strip the line, skip it when blank
or a `#` comment or without `=`, otherwise split on the first `=` into a
stripped key and a stripped, quote-stripped value. -/
def parseLine (line : List Char) : Option (List Char × List Char) :=
  let t := pyStrip line
  if t = [] then none
  else if t.head? = some '#' then none
  else if '=' ∈ t then
    some (pyStrip (t.takeWhile (notEqChar '=')),
          stripQuotesL (pyStrip ((t.dropWhile (notEqChar '=')).drop 1)))
  else none

/-- Embedding of `EnvStore.read_all` over a file content. -/
def envReadAll (content : List Char) : List (List Char × List Char) :=
  (splitLines content).foldl
    (fun m l =>
      match parseLine l with
      | some kv => dictInsert m kv.1 kv.2
      | none => m) []

/-- Formatting of one binding as a `KEY=VALUE` line (`f"{k}={v}"`). -/
def envLine (p : List Char × List Char) : List Char := p.1 ++ '=' :: p.2

/-- Embedding of `EnvStore.write_many`: read the current content, merge the
updates into it, and rewrite the whole file. -/
def envWriteMany (content : List Char) (updates : List (List Char × List Char)) : List Char :=
  let current := envReadAll content
  let merged := updates.foldl (fun m p => dictInsert m p.1 p.2) current
  joinLines (merged.map envLine)

/-- Specification-side quote stripping, following the spec text: strip one
layer when the first and last characters are the same quote character. -/
def specStripQuotes (v : List Char) : List Char :=
  if 2 ≤ v.length ∧ v.head? = v.getLast? ∧ (v.head? = some dquote ∨ v.head? = some squote) then
    v.tail.dropLast
  else v

/-- Specification-side line handling, following the spec text for C9: skip
blank (all-whitespace) lines, lines whose stripped content starts with `#`,
and lines without `=`; otherwise split the raw line on the first `=`,
trim whitespace around key and value, and strip one quote layer from the
value. -/
def specLineEntry (line : List Char) : Option (List Char × List Char) :=
  if line.all isPySpace then none
  else if (pyStrip line).head? = some '#' then none
  else if '=' ∈ line then
    some (pyStrip (line.takeWhile (notEqChar '=')),
          specStripQuotes (pyStrip ((line.dropWhile (notEqChar '=')).drop 1)))
  else none

/-- Specification-side `read_all`, folding `specLineEntry` over the lines. -/
def envReadAllSpec (content : List Char) : List (List Char × List Char) :=
  (splitLines content).foldl
    (fun m l =>
      match specLineEntry l with
      | some kv => dictInsert m kv.1 kv.2
      | none => m) []

/-- Whether a character list neither starts nor ends with whitespace
(equivalently, it is already stripped). -/
def noEdgeSpace (cs : List Char) : Bool :=
  (match cs.head? with
   | some c => !isPySpace c
   | none => true) &&
  (match cs.getLast? with
   | some c => !isPySpace c
   | none => true)

/-- Whether a key/value pair survives the `KEY=VALUE` line format: both
parts are stripped, the key contains no `=` and does not start a comment,
and neither part contains a newline. -/
def lineSafePair (p : List Char × List Char) : Bool :=
  noEdgeSpace p.1 && !(p.1.contains '=') && !(p.1.contains '\n') &&
  !(p.1.head? == some '#') && noEdgeSpace p.2 && !(p.2.contains '\n')

/-! ### Association-list lemmas -/

theorem dictGet_insert_self {α β : Type} [DecidableEq α] (m : List (α × β)) (k : α) (v : β) :
    dictGet (dictInsert m k v) k = some v := by
  induction m with
  | nil => simp [dictInsert, dictGet]
  | cons p rest ih =>
    by_cases h : p.1 = k
    · simp [dictInsert, h, dictGet]
    · simp [dictInsert, h, dictGet, ih]

theorem dictGet_insert_ne {α β : Type} [DecidableEq α] (m : List (α × β)) (k k' : α) (v : β)
    (h : k' ≠ k) : dictGet (dictInsert m k' v) k = dictGet m k := by
  induction m with
  | nil => simp [dictInsert, dictGet, h]
  | cons p rest ih =>
    by_cases hp : p.1 = k'
    · simp [dictInsert, hp, dictGet, h, hp ▸ h]
    · simp only [dictInsert, hp, if_false, dictGet]
      by_cases hk : p.1 = k
      · simp [hk]
      · simp [hk, ih]

theorem dictInsert_of_not_mem {α β : Type} [DecidableEq α] (m : List (α × β)) (k : α) (v : β)
    (h : k ∉ m.map Prod.fst) : dictInsert m k v = m ++ [(k, v)] := by
  induction m with
  | nil => simp [dictInsert]
  | cons p rest ih =>
    simp only [List.map_cons, List.mem_cons] at h
    push_neg at h
    simp [dictInsert, Ne.symm h.1, ih h.2]

theorem mem_dictInsert {α β : Type} [DecidableEq α] (m : List (α × β)) (k : α) (v : β)
    (p : α × β) (h : p ∈ dictInsert m k v) : p ∈ m ∨ p = (k, v) := by
  induction m with
  | nil => simp [dictInsert] at h; simp [h]
  | cons q rest ih =>
    by_cases hq : q.1 = k
    · simp only [dictInsert, hq, if_true, List.mem_cons] at h
      rcases h with h | h
      · right; exact h
      · left; exact List.mem_cons_of_mem _ h
    · simp only [dictInsert, hq, if_false, List.mem_cons] at h
      rcases h with h | h
      · left; simp [h]
      · rcases ih h with h | h
        · left; exact List.mem_cons_of_mem _ h
        · right; exact h

theorem dictKeys_insert {α β : Type} [DecidableEq α] (m : List (α × β)) (k : α) (v : β) :
    (dictInsert m k v).map Prod.fst =
      if k ∈ m.map Prod.fst then m.map Prod.fst else m.map Prod.fst ++ [k] := by
  induction m with
  | nil => simp [dictInsert]
  | cons p rest ih =>
    by_cases hp : p.1 = k
    · simp [dictInsert, hp]
    · simp only [dictInsert, hp, if_false, List.map_cons, ih, List.map_cons]
      by_cases hk : k ∈ rest.map Prod.fst
      · simp [hk, Ne.symm hp]
      · simp [hk, Ne.symm hp]

theorem nodup_keys_insert {α β : Type} [DecidableEq α] (m : List (α × β)) (k : α) (v : β)
    (h : (m.map Prod.fst).Nodup) : ((dictInsert m k v).map Prod.fst).Nodup := by
  rw [dictKeys_insert]
  by_cases hk : k ∈ m.map Prod.fst
  · simpa [hk]
  · simp [hk, List.nodup_append, h]

theorem dictGet_foldl_insert_not_mem {α β : Type} [DecidableEq α] (l : List (α × β))
    (m : List (α × β)) (k : α) (h : k ∉ l.map Prod.fst) :
    dictGet (l.foldl (fun acc p => dictInsert acc p.1 p.2) m) k = dictGet m k := by
  induction l generalizing m with
  | nil => rfl
  | cons p rest ih =>
    simp only [List.map_cons, List.mem_cons] at h
    push_neg at h
    simp only [List.foldl_cons]
    rw [ih _ h.2]
    exact dictGet_insert_ne m k p.1 p.2 (Ne.symm h.1)

theorem dictGet_foldl_insert_mem {α β : Type} [DecidableEq α] (l : List (α × β))
    (m : List (α × β)) (k : α) (v : β) (hnd : (l.map Prod.fst).Nodup) (hmem : (k, v) ∈ l) :
    dictGet (l.foldl (fun acc p => dictInsert acc p.1 p.2) m) k = some v := by
  induction l generalizing m with
  | nil => cases hmem
  | cons p rest ih =>
    simp only [List.map_cons, List.nodup_cons] at hnd
    simp only [List.foldl_cons]
    rcases List.mem_cons.mp hmem with h | h
    · have hk : k ∉ rest.map Prod.fst := by
        rw [← h] at hnd; exact hnd.1
      rw [dictGet_foldl_insert_not_mem _ _ _ hk, ← h, dictGet_insert_self]
    · exact ih _ hnd.2 h

theorem mem_foldl_insert {α β : Type} [DecidableEq α] (l : List (α × β)) (m : List (α × β))
    (p : α × β) (h : p ∈ l.foldl (fun acc q => dictInsert acc q.1 q.2) m) : p ∈ m ∨ p ∈ l := by
  induction l generalizing m with
  | nil => left; exact h
  | cons q rest ih =>
    simp only [List.foldl_cons] at h
    rcases ih _ h with h1 | h1
    · rcases mem_dictInsert _ _ _ _ h1 with h2 | h2
      · left; exact h2
      · right; simp [h2]
    · right; exact List.mem_cons_of_mem _ h1

theorem nodup_keys_foldl_insert {α β : Type} [DecidableEq α] (l : List (α × β))
    (m : List (α × β)) (h : (m.map Prod.fst).Nodup) :
    ((l.foldl (fun acc p => dictInsert acc p.1 p.2) m).map Prod.fst).Nodup := by
  induction l generalizing m with
  | nil => exact h
  | cons p rest ih => exact ih _ (nodup_keys_insert _ _ _ h)

theorem foldl_insert_of_disjoint {α β : Type} [DecidableEq α] (l : List (α × β))
    (m : List (α × β)) (hnd : (l.map Prod.fst).Nodup)
    (hdis : ∀ p ∈ l, p.1 ∉ m.map Prod.fst) :
    l.foldl (fun acc p => dictInsert acc p.1 p.2) m = m ++ l := by
  induction l generalizing m with
  | nil => simp
  | cons p rest ih =>
    simp only [List.map_cons, List.nodup_cons] at hnd
    simp only [List.foldl_cons]
    rw [dictInsert_of_not_mem _ _ _ (hdis p (List.mem_cons_self _ _))]
    rw [ih _ hnd.2]
    · simp
    · intro q hq
      simp only [List.map_append, List.mem_append, List.map_cons]
      push_neg
      constructor
      · exact hdis q (List.mem_cons_of_mem _ hq)
      · intro hc
        simp only [List.map_nil, List.mem_cons, List.not_mem_nil, or_false] at hc
        exact hnd.1 (hc ▸ List.mem_map_of_mem Prod.fst hq)

/-! ### Characterization of the validation loop -/

theorem vauLoop_spec (updates : List (String × Val)) (oks errs : List (String × String))
    (hnd : (updates.map Prod.fst).Nodup)
    (hoks : ∀ p ∈ updates, p.1 ∉ oks.map Prod.fst)
    (herrs : ∀ p ∈ updates, p.1 ∉ errs.map Prod.fst) :
    vauLoop updates oks errs = (oks ++ valOks updates, errs ++ valErrors updates) := by
  induction updates generalizing oks errs with
  | nil => simp [vauLoop, valOks, valErrors]
  | cons p rest ih =>
    obtain ⟨k, v⟩ := p
    simp only [List.map_cons, List.nodup_cons] at hnd
    have hrest_ne : ∀ q ∈ rest, q.1 ≠ k := by
      intro q hq hqk
      exact hnd.1 (hqk ▸ List.mem_map_of_mem Prod.fst hq)
    cases hv : validate_setting_value k v with
    | ok w =>
      simp only [vauLoop, hv]
      rw [dictInsert_of_not_mem _ _ _ (hoks (k, v) (List.mem_cons_self _ _))]
      rw [ih (oks ++ [(k, stringifyVal w)]) errs hnd.2 ?_ ?_]
      · simp [valOks, valErrors, List.filterMap_cons, hv]
      · intro q hq
        simp only [List.map_append, List.mem_append, List.map_cons, List.map_nil,
          List.mem_singleton, not_or]
        exact ⟨hoks q (List.mem_cons_of_mem _ hq), by simpa using hrest_ne q hq⟩
      · intro q hq
        exact herrs q (List.mem_cons_of_mem _ hq)
    | error e =>
      simp only [vauLoop, hv]
      rw [dictInsert_of_not_mem _ _ _ (herrs (k, v) (List.mem_cons_self _ _))]
      rw [ih oks (errs ++ [(k, e)]) hnd.2 ?_ ?_]
      · simp [valOks, valErrors, List.filterMap_cons, hv]
      · intro q hq
        exact hoks q (List.mem_cons_of_mem _ hq)
      · intro q hq
        simp only [List.map_append, List.mem_append, List.map_cons, List.map_nil,
          List.mem_singleton, not_or]
        exact ⟨herrs q (List.mem_cons_of_mem _ hq), by simpa using hrest_ne q hq⟩

theorem validateAndUpdateSettings_spec (updates : List (String × Val))
    (hnd : (updates.map Prod.fst).Nodup) :
    validateAndUpdateSettings updates =
      if valErrors updates = [] then .ok (valOks updates) else .error (valErrors updates) := by
  unfold validateAndUpdateSettings
  rw [vauLoop_spec updates [] [] hnd (by simp) (by simp)]
  simp

/-! ### Claim theorems -/

/-- C4: validation is run on every pair of an update batch; all failures are
collected into one aggregated error naming every offending key with its
reason; and when any pair fails, the bulk handlers answer 400 with that
aggregated error and leave the store untouched. -/
theorem c4_validation_aggregated (payload : List (String × Val))
    (hnd : (payload.map Prod.fst).Nodup) :
    (∀ k v e, (k, v) ∈ payload → validate_setting_value k v = .error e →
        (k, e) ∈ valErrors payload) ∧
    (valErrors payload ≠ [] →
        validateAndUpdateSettings payload = .error (valErrors payload)) ∧
    (∀ ctx rows now ioErr, valErrors payload ≠ [] → bulkConflicts payload rows = [] →
        bulkBlocked ctx payload = [] →
        put_settings_bulk ctx payload rows now ioErr
          = (.error ⟨400, .validationErrors (valErrors payload)⟩, rows)) ∧
    (∀ ctx rows now ioErr, valErrors payload ≠ [] → bulkMissing payload rows = [] →
        bulkBlocked ctx payload = [] →
        post_settings_bulk ctx payload rows now ioErr
          = (.error ⟨400, .validationErrors (valErrors payload)⟩, rows)) := by
  refine ⟨?_, ?_, ?_, ?_⟩
  · intro k v e hm hv
    simp only [valErrors, List.mem_filterMap]
    exact ⟨(k, v), hm, by simp [hv]⟩
  · intro hne
    rw [validateAndUpdateSettings_spec payload hnd, if_neg hne]
  · intro ctx rows now ioErr hne hc hb
    simp only [put_settings_bulk]
    rw [if_neg (by simp [hc]), if_neg (by simp [hb]),
      validateAndUpdateSettings_spec payload hnd, if_neg hne]
  · intro ctx rows now ioErr hne hm hb
    simp only [post_settings_bulk]
    rw [if_neg (by simp [hm]), if_neg (by simp [hb]),
      validateAndUpdateSettings_spec payload hnd, if_neg hne]

/-- C4 witness: a batch with one bad pair is rejected with the aggregated
error and no write occurs. -/
theorem c4_validation_aggregated_witness :
    put_settings_bulk ⟨[]⟩ [("A", .vStr "x"), ("PORT", .vStr "abc")] [] 1 none
      = (.error ⟨400, .validationErrors
          (valErrors [("A", .vStr "x"), ("PORT", .vStr "abc")])⟩, []) :=
  (c4_validation_aggregated [("A", .vStr "x"), ("PORT", .vStr "abc")] (by decide)).2.2.1
    ⟨[]⟩ [] 1 none (by decide) (by decide) (by decide)

/-- C2: a bulk create with at least one existing key writes nothing and
answers 409 listing every already-existing key of the batch; a bulk update
with at least one absent key writes nothing and answers 400 listing every
missing key. -/
theorem c2_bulk_all_or_nothing (ctx : AdminCtx) (payload : List (String × Val))
    (rows : List ConfigEntry) (now : Nat) (ioErr : Option String) :
    ((∃ k ∈ payload.map Prod.fst, keyInStore rows k = true) →
      put_settings_bulk ctx payload rows now ioErr
          = (.error ⟨409, .conflicts (bulkConflicts payload rows)⟩, rows) ∧
      ∀ k ∈ payload.map Prod.fst, keyInStore rows k = true →
        k ∈ bulkConflicts payload rows) ∧
    ((∃ k ∈ payload.map Prod.fst, keyInStore rows k = false) →
      post_settings_bulk ctx payload rows now ioErr
          = (.error ⟨400, .missing (bulkMissing payload rows)⟩, rows) ∧
      ∀ k ∈ payload.map Prod.fst, keyInStore rows k = false →
        k ∈ bulkMissing payload rows) := by
  constructor
  · rintro ⟨k, hk, hks⟩
    have hmem : k ∈ bulkConflicts payload rows := by
      simp only [bulkConflicts, List.mem_filter]
      exact ⟨hk, hks⟩
    refine ⟨?_, ?_⟩
    · simp only [put_settings_bulk]
      rw [if_pos (List.ne_nil_of_mem hmem)]
    · intro k2 hk2 hks2
      simp only [bulkConflicts, List.mem_filter]
      exact ⟨hk2, hks2⟩
  · rintro ⟨k, hk, hks⟩
    have hmem : k ∈ bulkMissing payload rows := by
      simp only [bulkMissing, List.mem_filter]
      exact ⟨hk, by simp [hks]⟩
    refine ⟨?_, ?_⟩
    · simp only [post_settings_bulk]
      rw [if_pos (List.ne_nil_of_mem hmem)]
    · intro k2 hk2 hks2
      simp only [bulkMissing, List.mem_filter]
      exact ⟨hk2, by simp [hks2]⟩

/-- C2 witness: a two-key bulk create against a store already holding both
keys answers 409 listing both keys and leaves the store unchanged. -/
theorem c2_bulk_all_or_nothing_witness :
    put_settings_bulk ⟨[]⟩ [("A", .vStr "1"), ("B", .vStr "2")]
        [⟨"A", "x", "str", none, false, 0, 0⟩, ⟨"B", "y", "str", none, false, 0, 0⟩] 1 none
      = (.error ⟨409, .conflicts ["A", "B"]⟩,
         [⟨"A", "x", "str", none, false, 0, 0⟩, ⟨"B", "y", "str", none, false, 0, 0⟩]) :=
  ((c2_bulk_all_or_nothing ⟨[]⟩ [("A", .vStr "1"), ("B", .vStr "2")]
      [⟨"A", "x", "str", none, false, 0, 0⟩, ⟨"B", "y", "str", none, false, 0, 0⟩] 1 none).1
    ⟨"A", by decide, by decide⟩).1

/-- C1 counterexample: the key `PATH` is in the immutable roster, yet when it
also already exists in the store the create path rejects it with 409
(conflict), not with the 403 immutable error the claim requires for every
admin mutation attempt on an immutable key. -/
theorem c1_counterexample :
    (put_setting ⟨["PATH"]⟩ "PATH" (.vStr "y")
        [⟨"PATH", "x", "str", none, false, 0, 0⟩] 1 none).1
      = .error ⟨409, .msg ("Setting " ++ quoteMark ++ "PATH" ++ quoteMark ++
          " already exists. Use POST to update existing keys.")⟩ ∧
    (409 : Nat) ≠ 403 := by
  exact ⟨by decide, by decide⟩

/-- C1 amended: every admin mutation attempt (single or bulk, create or
update) on a key of the immutable roster fails with some error and leaves
the store rows unchanged; the failure is the 403 immutable error on the
create path when the key is absent and on the update path when it is
present (otherwise the existence pre-check fires first with 409 resp. 400);
and `DBStore.write_many` silently skips an update to a key whose stored row
is marked immutable. -/
theorem c1_immutable_always_rejected (ctx : AdminCtx) (key : String) (value : Val)
    (rows : List ConfigEntry) (now : Nat) (ioErr : Option String)
    (payload : List (String × Val)) (himm : key ∈ ctx.immutableKeys) :
    ((put_setting ctx key value rows now ioErr).2 = rows ∧
      ∃ e, (put_setting ctx key value rows now ioErr).1 = .error e) ∧
    ((post_setting ctx key value rows now ioErr).2 = rows ∧
      ∃ e, (post_setting ctx key value rows now ioErr).1 = .error e) ∧
    (key ∈ payload.map Prod.fst →
      (put_settings_bulk ctx payload rows now ioErr).2 = rows ∧
      ∃ e, (put_settings_bulk ctx payload rows now ioErr).1 = .error e) ∧
    (key ∈ payload.map Prod.fst →
      (post_settings_bulk ctx payload rows now ioErr).2 = rows ∧
      ∃ e, (post_settings_bulk ctx payload rows now ioErr).1 = .error e) ∧
    (keyInStore rows key = false →
      (put_setting ctx key value rows now ioErr).1
        = .error ⟨403, .msg ("Setting " ++ quoteMark ++ key ++ quoteMark ++ " is immutable")⟩) ∧
    (keyInStore rows key = true →
      (post_setting ctx key value rows now ioErr).1
        = .error ⟨403, .msg ("Setting " ++ quoteMark ++ key ++ quoteMark ++ " is immutable")⟩) ∧
    (∀ k v, immOk rows k = false → dbWriteMany rows [(k, v)] now = rows) := by
  refine ⟨?_, ?_, ?_, ?_, ?_, ?_, ?_⟩
  · by_cases hks : keyInStore rows key
    · simp [put_setting, hks]
    · simp [put_setting, hks, himm]
  · by_cases hks : keyInStore rows key
    · simp [post_setting, hks, himm]
    · simp [post_setting, hks]
  · intro hpk
    by_cases hc : bulkConflicts payload rows = []
    · have hmem : key ∈ bulkBlocked ctx payload := by
        simp only [bulkBlocked, List.mem_filter]
        exact ⟨hpk, by simpa using himm⟩
      simp only [put_settings_bulk]
      rw [if_neg (by simp [hc]), if_pos (List.ne_nil_of_mem hmem)]
      exact ⟨rfl, _, rfl⟩
    · simp only [put_settings_bulk]
      rw [if_pos hc]
      exact ⟨rfl, _, rfl⟩
  · intro hpk
    by_cases hm : bulkMissing payload rows = []
    · have hmem : key ∈ bulkBlocked ctx payload := by
        simp only [bulkBlocked, List.mem_filter]
        exact ⟨hpk, by simpa using himm⟩
      simp only [post_settings_bulk]
      rw [if_neg (by simp [hm]), if_pos (List.ne_nil_of_mem hmem)]
      exact ⟨rfl, _, rfl⟩
    · simp only [post_settings_bulk]
      rw [if_pos hm]
      exact ⟨rfl, _, rfl⟩
  · intro hks
    simp [put_setting, hks, himm]
  · intro hks
    simp [post_setting, hks, himm]
  · intro k v himmk
    have : dbWriteOne rows k v now = rows := by
      unfold immOk at himmk
      unfold dbWriteOne
      cases hf : findRow rows k with
      | none => rw [hf] at himmk; simp at himmk
      | some e =>
        rw [hf] at himmk
        simp only [Bool.not_eq_false'] at himmk
        simp [himmk]
    simp [dbWriteMany, this]

/-- C1 witness: for the immutable key `TEST_IMM` absent from an empty store,
the create path answers exactly the 403 immutable error. -/
theorem c1_immutable_always_rejected_witness :
    (put_setting ⟨["TEST_IMM"]⟩ "TEST_IMM" (.vStr "orig") [] 0 none).1
      = .error ⟨403, .msg ("Setting " ++ quoteMark ++ "TEST_IMM" ++ quoteMark ++
          " is immutable")⟩ :=
  (c1_immutable_always_rejected ⟨["TEST_IMM"]⟩ "TEST_IMM" (.vStr "orig") [] 0 none
    [("TEST_IMM", .vStr "orig")] (by decide)).2.2.2.2.1 (by decide)

/-- C5: a bearer token that fails to decode under the admin secret but
decodes, unexpired, under the user secret while carrying `role: admin` in
its payload is accepted by the admin-capability check. -/
theorem c5_user_secret_admin_role_accepted (cfg : SecCfg) (t : Token)
    (hadm : t.secret ≠ cfg.adminSecret) (husr : t.secret = cfg.userSecret)
    (hexp : t.expired = false) (hrole : t.role = some "admin") :
    require_role cfg "admin" t = .ok (some "admin", "user") := by
  rw [husr] at hadm
  simp [require_role, decodeToken, tryDecodeWithSecret, hadm, husr, hexp, hrole,
    effectiveRole]

/-- C5 witness: a concrete user-secret-signed token with an `admin` role
claim passes `require_role "admin"`. -/
theorem c5_user_secret_admin_role_accepted_witness :
    require_role ⟨"admin-secret-change-me", "user-secret-change-me"⟩ "admin"
        ⟨"user-secret-change-me", some "admin", false⟩ = .ok (some "admin", "user") :=
  c5_user_secret_admin_role_accepted ⟨"admin-secret-change-me", "user-secret-change-me"⟩
    ⟨"user-secret-change-me", some "admin", false⟩ (by decide) rfl rfl rfl

/-- C6: re-running the construction-time migration is a no-op — the second
run leaves the database file identical, `read_all` results agree, and a
migration from a legacy table produces exactly one rich row per legacy row
(no duplicates). -/
theorem c6_migration_idempotent (db : DBFile) (n1 n2 : Nat) :
    ensureMigrations (ensureMigrations db n1) n2 = ensureMigrations db n1 ∧
    dbReadAll (ensureMigrations (ensureMigrations db n1) n2).config
      = dbReadAll (ensureMigrations db n1).config ∧
    (∀ lrows, db.legacy = some lrows → db.config = [] →
      (ensureMigrations db n1).config.map ConfigEntry.key = lrows.map Prod.fst) := by
  have h1 : ensureMigrations (ensureMigrations db n1) n2 = ensureMigrations db n1 := by
    obtain ⟨leg, cfg⟩ := db
    cases leg with
    | none => simp [ensureMigrations]
    | some lrows =>
      by_cases hc : cfg = []
      · subst hc
        cases lrows with
        | nil => simp [ensureMigrations]
        | cons a t => simp [ensureMigrations]
      · simp [ensureMigrations, hc]
  refine ⟨h1, by rw [h1], ?_⟩
  intro lrows hleg hcfg
  obtain ⟨leg, cfg⟩ := db
  simp only at hleg hcfg
  subst hleg
  subst hcfg
  simp [ensureMigrations, migrateLegacyRow]

/-- C6 witness: migrating a one-row legacy table twice yields the single
migrated row, with the legacy key, and the second run changes nothing. -/
theorem c6_migration_idempotent_witness :
    ensureMigrations (ensureMigrations ⟨some [("A", "1")], []⟩ 3) 7
        = ensureMigrations ⟨some [("A", "1")], []⟩ 3 ∧
    (ensureMigrations ⟨some [("A", "1")], []⟩ 3).config.map ConfigEntry.key = ["A"] :=
  ⟨(c6_migration_idempotent ⟨some [("A", "1")], []⟩ 3 7).1,
   (c6_migration_idempotent ⟨some [("A", "1")], []⟩ 3 7).2.2 [("A", "1")] rfl rfl⟩

/-- C7 counterexample: a persistence failure is answered with a 500 whose
detail is exactly the internal exception text (`str(e)`), so internal
details do appear in the response body, contradicting the claim that the
500 is generic. -/
theorem c7_counterexample :
    persistAndReload [] [("LOG_LEVEL", "INFO")] 0
        (some "sqlite3.OperationalError: disk I/O error")
      = .error ⟨500, .msg "sqlite3.OperationalError: disk I/O error"⟩ ∧
    Detail.msg "sqlite3.OperationalError: disk I/O error"
      ≠ Detail.msg "Internal Server Error" := by
  exact ⟨rfl, by decide⟩

/-- C7 amended: a persistence failure is logged and surfaced as an HTTP 500
whose detail is the exception text itself (internal details are included,
not suppressed); on the bulk create path the 500 reaches the caller with the
store left unchanged. -/
theorem c7_persistence_error_as_500 (rows : List ConfigEntry)
    (updates : List (String × String)) (now : Nat) (m : String) :
    persistAndReload rows updates now (some m) = .error ⟨500, .msg m⟩ ∧
    (∀ ctx payload, (payload.map Prod.fst).Nodup → bulkConflicts payload rows = [] →
      bulkBlocked ctx payload = [] → valErrors payload = [] →
      put_settings_bulk ctx payload rows now (some m) = (.error ⟨500, .msg m⟩, rows)) := by
  refine ⟨rfl, ?_⟩
  intro ctx payload hnd hc hb hv
  simp only [put_settings_bulk]
  rw [if_neg (by simp [hc]), if_neg (by simp [hb]),
    validateAndUpdateSettings_spec payload hnd, if_pos hv]
  rfl

/-- C7 witness: at a concrete failing write the bulk create path returns the
500 carrying the exception text. -/
theorem c7_persistence_error_as_500_witness :
    put_settings_bulk ⟨[]⟩ [("A", .vStr "1")] [] 4 (some "disk full")
      = (.error ⟨500, .msg "disk full"⟩, []) :=
  (c7_persistence_error_as_500 [] [("A", "1")] 4 "disk full").2 ⟨[]⟩
    [("A", .vStr "1")] (by decide) (by decide) (by decide) (by decide)

/-- C8: single-key validation resolves the key by declared alias first, then
by the lowercased key as field name; with no matching field the raw value is
returned unchanged; with a matching field the value is coerced against the
declared type, and an impossible coercion yields the validation error
naming the key and the human-readable reason. -/
theorem c8_validate_resolution (key : String) (v : Val) :
    (findByAlias key = none → findByName (lowerAscii key) = none →
      validate_setting_value key v = .ok v) ∧
    (∀ f, findByAlias key = some f →
      validate_setting_value key v = wrapValidationError key (coerceVal f.ftype v)) ∧
    (∀ f, findByAlias key = none → findByName (lowerAscii key) = some f →
      validate_setting_value key v = wrapValidationError key (coerceVal f.ftype v)) ∧
    (∀ f e, (findByAlias key = some f ∨
        (findByAlias key = none ∧ findByName (lowerAscii key) = some f)) →
      coerceVal f.ftype v = .error e →
      validate_setting_value key v
        = .error ("Invalid value for setting " ++ quoteMark ++ key ++ quoteMark ++ ": " ++ e)) := by
  refine ⟨?_, ?_, ?_, ?_⟩
  · intro h1 h2
    simp [validate_setting_value, h1, h2]
  · intro f hf
    simp [validate_setting_value, hf]
  · intro f h1 hf
    simp [validate_setting_value, h1, hf]
  · rintro f e (hf | ⟨h1, hf⟩) hcoerce
    · simp [validate_setting_value, hf, wrapValidationError, hcoerce]
    · simp [validate_setting_value, h1, hf, wrapValidationError, hcoerce]

/-- C8 witness: an unknown key passes through unchanged; instantiated from
the resolution theorem at a concrete key. -/
theorem c8_validate_resolution_witness :
    validate_setting_value "NOVEL_KEY" (.vStr "x") = .ok (.vStr "x") :=
  (c8_validate_resolution "NOVEL_KEY" (.vStr "x")).1 (by decide) (by decide)

theorem dictGet_some_mem {α β : Type} [DecidableEq α] (m : List (α × β)) (k : α) (v : β)
    (h : dictGet m k = some v) : (k, v) ∈ m := by
  induction m with
  | nil => cases h
  | cons p rest ih =>
    by_cases hp : p.1 = k
    · simp only [dictGet, hp, if_true, Option.some.injEq] at h
      have hpv : p = (k, v) := by
        obtain ⟨p1, p2⟩ := p
        simp_all
      rw [← hpv]
      exact List.mem_cons_self _ _
    · simp only [dictGet, hp, if_false] at h
      exact List.mem_cons_of_mem _ (ih h)

theorem dictGet_isSome_of_mem_keys {α β : Type} [DecidableEq α] (m : List (α × β)) (k : α)
    (h : k ∈ m.map Prod.fst) : ∃ v, dictGet m k = some v := by
  induction m with
  | nil => cases h
  | cons p rest ih =>
    by_cases hp : p.1 = k
    · exact ⟨p.2, by simp [dictGet, hp]⟩
    · simp only [List.map_cons, List.mem_cons] at h
      rcases h with h | h
      · exact absurd h.symm hp
      · simpa [dictGet, hp] using ih h

/-- C10: in the merged view of `GET /admin/settings`, the in-memory model
value takes precedence over the raw store value for every declared alias,
keys present only in the store keep their store value, and every declared
alias is present in the view (so `GET /admin/settings/{key}` never answers
404 for a declared alias). -/
theorem c10_merged_view (env model : List (String × String))
    (hma : model.map Prod.fst = settingsAliases) :
    (∀ a v, dictGet model a = some v → dictGet (allowedKeys env model) a = some v) ∧
    (∀ k, k ∉ settingsAliases → dictGet (allowedKeys env model) k = dictGet env k) ∧
    (∀ a ∈ settingsAliases, ∃ v, dictGet (allowedKeys env model) a = some v) ∧
    (∀ a ∈ settingsAliases, ∃ v, get_setting env model a = .ok (a, v)) := by
  have hnd : (model.map Prod.fst).Nodup := by rw [hma]; decide
  have h1 : ∀ a v, dictGet model a = some v → dictGet (allowedKeys env model) a = some v := by
    intro a v h
    exact dictGet_foldl_insert_mem model env a v hnd (dictGet_some_mem _ _ _ h)
  have h3 : ∀ a ∈ settingsAliases, ∃ v, dictGet (allowedKeys env model) a = some v := by
    intro a ha
    obtain ⟨v, hv⟩ := dictGet_isSome_of_mem_keys model a (by rw [hma]; exact ha)
    exact ⟨v, h1 a v hv⟩
  refine ⟨h1, ?_, h3, ?_⟩
  · intro k hk
    exact dictGet_foldl_insert_not_mem model env k (by rw [hma]; exact hk)
  · intro a ha
    obtain ⟨v, hv⟩ := h3 a ha
    exact ⟨v, by simp [get_setting, hv]⟩

/-- C10 witness: with a one-key store and a model carrying value `M` for
every alias, the view reports the model value for `LOG_LEVEL` and the store
value for the store-only key `X`. -/
theorem c10_merged_view_witness :
    dictGet (allowedKeys [("X", "1")] (settingsAliases.map (fun a => (a, "M")))) "LOG_LEVEL"
        = some "M" ∧
    dictGet (allowedKeys [("X", "1")] (settingsAliases.map (fun a => (a, "M")))) "X"
        = some "1" :=
  ⟨(c10_merged_view [("X", "1")] (settingsAliases.map (fun a => (a, "M"))) (by decide)).1
      "LOG_LEVEL" "M" (by decide),
   (c10_merged_view [("X", "1")] (settingsAliases.map (fun a => (a, "M"))) (by decide)).2.1
      "X" (by decide)⟩

/-! ### takeWhile / dropWhile over concatenation -/

theorem takeWhile_append_all {α : Type} {p : α → Bool} (w t : List α)
    (h : ∀ a ∈ w, p a = true) : (w ++ t).takeWhile p = w ++ t.takeWhile p := by
  induction w with
  | nil => simp
  | cons c rest ih =>
    have hc := h c (List.mem_cons_self _ _)
    simp only [List.cons_append, List.takeWhile_cons, hc, if_true]
    rw [ih (fun a ha => h a (List.mem_cons_of_mem _ ha))]

theorem dropWhile_append_all {α : Type} {p : α → Bool} (w t : List α)
    (h : ∀ a ∈ w, p a = true) : (w ++ t).dropWhile p = t.dropWhile p := by
  induction w with
  | nil => simp
  | cons c rest ih =>
    have hc := h c (List.mem_cons_self _ _)
    simp only [List.cons_append, List.dropWhile_cons, hc, if_true]
    exact ih (fun a ha => h a (List.mem_cons_of_mem _ ha))

theorem takeWhile_append_stop {α : Type} {p : α → Bool} (t w : List α)
    (h : ∃ a ∈ t, p a = false) : (t ++ w).takeWhile p = t.takeWhile p := by
  induction t with
  | nil =>
    obtain ⟨a, ha, _⟩ := h
    cases ha
  | cons c rest ih =>
    by_cases hc : p c = true
    · simp only [List.cons_append, List.takeWhile_cons, hc, if_true]
      obtain ⟨a, ha, hpa⟩ := h
      rcases List.mem_cons.mp ha with rfl | ha2
      · rw [hc] at hpa; cases hpa
      · rw [ih ⟨a, ha2, hpa⟩]
    · have hc2 : p c = false := by revert hc; cases p c <;> simp
      simp [List.takeWhile_cons, hc2]

theorem dropWhile_append_keep {α : Type} {p : α → Bool} (t w : List α)
    (h : ∃ a ∈ t, p a = false) : (t ++ w).dropWhile p = t.dropWhile p ++ w := by
  induction t with
  | nil =>
    obtain ⟨a, ha, _⟩ := h
    cases ha
  | cons c rest ih =>
    by_cases hc : p c = true
    · simp only [List.cons_append, List.dropWhile_cons, hc, if_true]
      obtain ⟨a, ha, hpa⟩ := h
      rcases List.mem_cons.mp ha with rfl | ha2
      · rw [hc] at hpa; cases hpa
      · exact ih ⟨a, ha2, hpa⟩
    · have hc2 : p c = false := by revert hc; cases p c <;> simp
      simp [List.dropWhile_cons, hc2]

/-! ### Whitespace stripping lemmas -/

theorem stripLeft_append_spaces (w cs : List Char) (h : ∀ a ∈ w, isPySpace a = true) :
    stripLeft (w ++ cs) = stripLeft cs :=
  dropWhile_append_all w cs h

theorem stripRight_append_spaces (cs w : List Char) (h : ∀ a ∈ w, isPySpace a = true) :
    stripRight (cs ++ w) = stripRight cs := by
  unfold stripRight
  rw [List.reverse_append, dropWhile_append_all _ _ (fun a ha => h a (List.mem_reverse.mp ha))]

theorem pyStrip_append_left_spaces (w cs : List Char) (h : ∀ a ∈ w, isPySpace a = true) :
    pyStrip (w ++ cs) = pyStrip cs := by
  unfold pyStrip
  rw [stripLeft_append_spaces w cs h]

theorem pyStrip_append_right_spaces (cs w : List Char) (h : ∀ a ∈ w, isPySpace a = true) :
    pyStrip (cs ++ w) = pyStrip cs := by
  by_cases hall : ∀ a ∈ cs, isPySpace a = true
  · unfold pyStrip stripLeft
    rw [List.dropWhile_eq_nil_iff.mpr, List.dropWhile_eq_nil_iff.mpr hall]
    intro a ha
    rcases List.mem_append.mp ha with h1 | h1
    · exact hall a h1
    · exact h a h1
  · push_neg at hall
    obtain ⟨a, ha, hpa⟩ := hall
    have hpa2 : isPySpace a = false := by revert hpa; cases isPySpace a <;> simp
    unfold pyStrip stripLeft
    rw [dropWhile_append_keep cs w ⟨a, ha, hpa2⟩]
    exact stripRight_append_spaces _ w h

theorem pyStrip_eq_nil_iff (cs : List Char) :
    pyStrip cs = [] ↔ ∀ a ∈ cs, isPySpace a = true := by
  constructor
  · intro h a ha
    unfold pyStrip stripRight at h
    rw [List.reverse_eq_nil_iff, List.dropWhile_eq_nil_iff] at h
    by_cases hdrop : a ∈ stripLeft cs
    · exact h a (List.mem_reverse.mpr hdrop)
    · unfold stripLeft at hdrop
      have hsplit := List.takeWhile_append_dropWhile (p := isPySpace) (l := cs)
      rw [← hsplit] at ha
      rcases List.mem_append.mp ha with h1 | h1
      · exact List.mem_takeWhile_imp h1
      · exact absurd h1 hdrop
  · intro h
    unfold pyStrip stripLeft
    rw [List.dropWhile_eq_nil_iff.mpr h]
    rfl

theorem pyStrip_decomp (cs : List Char) :
    ∃ w1 w2, cs = w1 ++ pyStrip cs ++ w2 ∧
      (∀ a ∈ w1, isPySpace a = true) ∧ (∀ a ∈ w2, isPySpace a = true) := by
  refine ⟨cs.takeWhile isPySpace, ((stripLeft cs).reverse.takeWhile isPySpace).reverse, ?_, ?_, ?_⟩
  · conv_lhs => rw [← List.takeWhile_append_dropWhile (p := isPySpace) (l := cs)]
    rw [List.append_assoc]
    congr 1
    show stripLeft cs = pyStrip cs ++ _
    conv_lhs => rw [← List.reverse_reverse (stripLeft cs),
      ← List.takeWhile_append_dropWhile (p := isPySpace) (l := (stripLeft cs).reverse)]
    rw [List.reverse_append]
    rfl
  · intro a ha
    exact List.mem_takeWhile_imp ha
  · intro a ha
    rw [List.mem_reverse] at ha
    exact List.mem_takeWhile_imp ha

/-! ### Line splitting and joining -/

theorem foldr_lineStep_no_newline (l : List Char) (g : List Char) (gs : List (List Char))
    (h : '\n' ∉ l) : l.foldr lineStep (g :: gs) = (l ++ g) :: gs := by
  induction l with
  | nil => rfl
  | cons c rest ih =>
    simp only [List.mem_cons, not_or] at h
    have hc : ¬c = '\n' := fun hcc => h.1 hcc.symm
    rw [List.foldr_cons, ih h.2]
    simp [lineStep, hc]

theorem splitLines_single (l : List Char) (h : '\n' ∉ l) :
    splitLines l = if l = [] then [] else [l] := by
  cases l with
  | nil => rfl
  | cons c rest =>
    simp only [List.mem_cons, not_or] at h
    have hc : ¬c = '\n' := fun hcc => h.1 hcc.symm
    unfold splitLines
    rw [List.foldr_cons]
    cases hr : rest with
    | nil => simp [lineStep, hc]
    | cons d t =>
      rw [← hr]
      have : rest.foldr lineStep [] = [rest] := by
        have h2 : splitLines rest = if rest = [] then [] else [rest] :=
          splitLines_single rest h.2
        simpa [splitLines, hr] using h2
      rw [this]
      simp [lineStep, hc]

theorem splitLines_append (l rest : List Char) (h : '\n' ∉ l) :
    splitLines (l ++ '\n' :: rest) = l :: splitLines rest := by
  unfold splitLines
  rw [List.foldr_append, List.foldr_cons]
  have h1 : lineStep '\n' (List.foldr lineStep [] rest) = [] :: List.foldr lineStep [] rest := by
    simp [lineStep]
  rw [h1, foldr_lineStep_no_newline l [] _ h]
  simp

theorem splitLines_joinLines (ls : List (List Char))
    (h : ∀ l ∈ ls, l ≠ [] ∧ '\n' ∉ l) : splitLines (joinLines ls) = ls := by
  induction ls with
  | nil => rfl
  | cons l rest ih =>
    cases rest with
    | nil =>
      have hl := h l (List.mem_cons_self _ _)
      simp [joinLines, splitLines_single l hl.2, hl.1]
    | cons l2 t =>
      have hl := h l (List.mem_cons_self _ _)
      rw [joinLines, splitLines_append l _ hl.2,
        ih (fun q hq => h q (List.mem_cons_of_mem _ hq))]

/-! ### Stripped-layout helpers -/

theorem noEdgeSpace_split (cs : List Char) (h : noEdgeSpace cs = true) :
    (∀ c t, cs = c :: t → isPySpace c = false) ∧
    (∀ c, cs.getLast? = some c → isPySpace c = false) := by
  unfold noEdgeSpace at h
  rw [Bool.and_eq_true] at h
  constructor
  · intro c t hct
    subst hct
    have h1 : (!isPySpace c) = true := h.1
    simpa using h1
  · intro c hc
    rw [hc] at h
    have h2 : (!isPySpace c) = true := h.2
    simpa using h2

theorem stripLeft_of_noEdgeSpace (cs : List Char) (h : noEdgeSpace cs = true) :
    stripLeft cs = cs := by
  cases cs with
  | nil => rfl
  | cons c t =>
    have hc := (noEdgeSpace_split _ h).1 c t rfl
    simp [stripLeft, List.dropWhile_cons, hc]

theorem stripRight_of_noEdgeSpace (cs : List Char) (h : noEdgeSpace cs = true) :
    stripRight cs = cs := by
  unfold stripRight
  cases hr : cs.reverse with
  | nil =>
    rw [List.reverse_eq_nil_iff] at hr
    simp [hr]
  | cons c t =>
    have hlast : cs.getLast? = some c := by
      rw [← List.head?_reverse, hr, List.head?_cons]
    have hc := (noEdgeSpace_split _ h).2 c hlast
    rw [List.dropWhile_cons, hc]
    simp [← hr]

theorem pyStrip_of_noEdgeSpace (cs : List Char) (h : noEdgeSpace cs = true) :
    pyStrip cs = cs := by
  unfold pyStrip
  rw [show stripLeft cs = cs from stripLeft_of_noEdgeSpace cs h,
    stripRight_of_noEdgeSpace cs h]

/-! ### Quote stripping: source form equals specification form -/

theorem stripQuotesL_eq_spec (v : List Char) : stripQuotesL v = specStripQuotes v := by
  unfold stripQuotesL specStripQuotes
  by_cases hlen : 2 ≤ v.length
  · by_cases h1 : (v.head? = some dquote ∧ v.getLast? = some dquote) ∨
        (v.head? = some squote ∧ v.getLast? = some squote)
    · rw [if_pos hlen, if_pos h1, if_pos, List.drop_one]
      rcases h1 with ⟨ha, hb⟩ | ⟨ha, hb⟩
      · exact ⟨hlen, by rw [ha, hb], Or.inl ha⟩
      · exact ⟨hlen, by rw [ha, hb], Or.inr ha⟩
    · rw [if_pos hlen, if_neg h1, if_neg]
      rintro ⟨-, heq, (hq | hq)⟩
      · exact h1 (Or.inl ⟨hq, by rw [← heq, hq]⟩)
      · exact h1 (Or.inr ⟨hq, by rw [← heq, hq]⟩)
  · rw [if_neg hlen, if_neg]
    rintro ⟨h2, -, -⟩
    exact hlen h2

theorem parseLine_eq_specLineEntry (line : List Char) : parseLine line = specLineEntry line := by
  obtain ⟨w1, w2, hdec, hw1, hw2⟩ := pyStrip_decomp line
  by_cases hnil : pyStrip line = []
  · unfold parseLine specLineEntry
    rw [if_pos hnil,
      if_pos (List.all_eq_true.mpr ((pyStrip_eq_nil_iff line).mp hnil))]
  · have hallf : ¬line.all isPySpace = true := fun hc =>
      hnil ((pyStrip_eq_nil_iff line).mpr (List.all_eq_true.mp hc))
    unfold parseLine specLineEntry
    rw [if_neg hnil, if_neg hallf]
    by_cases hhash : (pyStrip line).head? = some '#'
    · rw [if_pos hhash, if_pos hhash]
    · rw [if_neg hhash, if_neg hhash]
      have hw1p : ∀ a ∈ w1, notEqChar '=' a = true := by
        intro a ha
        have hsp := hw1 a ha
        by_cases hae : a = '='
        · rw [hae] at hsp
          exact absurd hsp (by decide)
        · simp [notEqChar, hae]
      have hmem : ('=' ∈ pyStrip line) ↔ ('=' ∈ line) := by
        constructor
        · intro h
          rw [hdec]
          simp only [List.mem_append]
          tauto
        · intro h
          rw [hdec] at h
          simp only [List.mem_append] at h
          rcases h with (h1 | h1) | h1
          · exact absurd (hw1 _ h1) (by decide)
          · exact h1
          · exact absurd (hw2 _ h1) (by decide)
      by_cases heq : '=' ∈ pyStrip line
      · rw [if_pos heq, if_pos (hmem.mp heq)]
        have hstop : ∃ a ∈ pyStrip line, notEqChar '=' a = false :=
          ⟨'=', heq, by simp [notEqChar]⟩
        have htake : line.takeWhile (notEqChar '=')
            = w1 ++ (pyStrip line).takeWhile (notEqChar '=') := by
          conv_lhs => rw [hdec]
          rw [List.append_assoc, takeWhile_append_all _ _ hw1p,
            takeWhile_append_stop _ _ hstop]
        have hdrop : line.dropWhile (notEqChar '=')
            = (pyStrip line).dropWhile (notEqChar '=') ++ w2 := by
          conv_lhs => rw [hdec]
          rw [List.append_assoc, dropWhile_append_all _ _ hw1p,
            dropWhile_append_keep _ _ hstop]
        have hne : (pyStrip line).dropWhile (notEqChar '=') ≠ [] := by
          intro hc
          have := List.dropWhile_eq_nil_iff.mp hc '=' heq
          simp [notEqChar] at this
        cases hd : (pyStrip line).dropWhile (notEqChar '=') with
        | nil => exact absurd hd hne
        | cons d ds =>
          rw [htake, hdrop, hd]
          simp only [List.cons_append, List.drop_succ_cons, List.drop_zero]
          rw [pyStrip_append_left_spaces w1 _ hw1, pyStrip_append_right_spaces _ w2 hw2,
            stripQuotesL_eq_spec]
      · rw [if_neg heq, if_neg (fun hc => heq (hmem.mpr hc))]

/-- C9: the file backend's `read_all` is exactly the specified parse: lines
are handled one by one, blank (all-whitespace) lines and comment lines are
skipped, lines without `=` are ignored, the remaining lines are split on
the first `=` with whitespace trimmed around key and value, and exactly one
layer of matching surrounding quotes is stripped from the value. -/
theorem c9_env_read_all_refines (content : List Char) :
    envReadAll content = envReadAllSpec content := by
  unfold envReadAll envReadAllSpec
  have h : (fun (m : List (List Char × List Char)) l =>
      match parseLine l with
      | some kv => dictInsert m kv.1 kv.2
      | none => m)
      = (fun (m : List (List Char × List Char)) l =>
      match specLineEntry l with
      | some kv => dictInsert m kv.1 kv.2
      | none => m) := by
    funext m l
    rw [parseLine_eq_specLineEntry]
  rw [h]

/-! ### Table-store round-trip lemmas -/

theorem findRow_append (a b : List ConfigEntry) (k : String) :
    findRow (a ++ b) k = match findRow a k with
      | some e => some e
      | none => findRow b k := by
  induction a with
  | nil => rfl
  | cons r rest ih =>
    by_cases hr : r.key = k
    · simp [findRow, hr]
    · simp [findRow, hr, ih]

theorem findRow_map_update_other (rows : List ConfigEntry) (k kw v : String) (now : Nat)
    (h : kw ≠ k) :
    findRow (rows.map (fun r => if r.key = kw then { r with value := v, updatedAt := now } else r)) k
      = findRow rows k := by
  induction rows with
  | nil => rfl
  | cons r rest ih =>
    by_cases hr : r.key = kw
    · have hk : ¬r.key = k := by rw [hr]; exact h
      simp [findRow, hr, hk, h, ih]
    · by_cases hk : r.key = k
      · simp [findRow, hr, hk, Ne.symm h]
      · simp [findRow, hr, hk, Ne.symm h, ih]

theorem findRow_map_update_self (rows : List ConfigEntry) (k v : String) (now : Nat)
    (e : ConfigEntry) (hf : findRow rows k = some e) :
    findRow (rows.map (fun r => if r.key = k then { r with value := v, updatedAt := now } else r)) k
      = some { e with value := v, updatedAt := now } := by
  induction rows with
  | nil => cases hf
  | cons r rest ih =>
    by_cases hr : r.key = k
    · simp only [findRow, hr, if_true, Option.some.injEq] at hf
      subst hf
      simp [findRow, hr]
    · simp only [findRow, hr, if_false] at hf
      simp [findRow, hr, ih hf]

theorem findRow_writeOne_other (rows : List ConfigEntry) (k kw v : String) (now : Nat)
    (h : kw ≠ k) : findRow (dbWriteOne rows kw v now) k = findRow rows k := by
  unfold dbWriteOne
  cases hf : findRow rows kw with
  | none =>
    rw [findRow_append]
    cases hfk : findRow rows k with
    | some e => rfl
    | none => simp [findRow, h]
  | some e =>
    by_cases himm : e.isImmutable = true
    · simp [himm]
    · simp only [himm, if_false]
      exact findRow_map_update_other rows k kw v now h

theorem findRow_writeOne_self (rows : List ConfigEntry) (k v : String) (now : Nat)
    (h : immOk rows k = true) :
    ∃ e, findRow (dbWriteOne rows k v now) k = some e ∧ e.value = v := by
  unfold dbWriteOne
  cases hf : findRow rows k with
  | none =>
    refine ⟨{ key := k, value := v, valueType := "str", description := none,
              isImmutable := false, createdAt := now, updatedAt := now }, ?_, rfl⟩
    rw [findRow_append, hf]
    simp [findRow]
  | some e =>
    have himm : e.isImmutable = false := by
      unfold immOk at h
      rw [hf] at h
      simpa using h
    simp only [himm, Bool.false_eq_true, if_false]
    exact ⟨{ e with value := v, updatedAt := now },
      findRow_map_update_self rows k v now e hf, rfl⟩

theorem immOk_writeOne_other (rows : List ConfigEntry) (kw v : String) (now : Nat) (k : String)
    (h : kw ≠ k) : immOk (dbWriteOne rows kw v now) k = immOk rows k := by
  unfold immOk
  rw [findRow_writeOne_other rows k kw v now h]

theorem findRow_writeMany_not_mem (rows : List ConfigEntry) (updates : List (String × String))
    (now : Nat) (k : String) (h : k ∉ updates.map Prod.fst) :
    findRow (dbWriteMany rows updates now) k = findRow rows k := by
  induction updates generalizing rows with
  | nil => rfl
  | cons p rest ih =>
    obtain ⟨kw, v⟩ := p
    simp only [List.map_cons, List.mem_cons, not_or] at h
    rw [dbWriteMany, ih _ h.2, findRow_writeOne_other _ _ _ _ _ (fun hc => h.1 hc.symm)]

theorem dbRoundTrip (updates : List (String × String)) (rows : List ConfigEntry) (now : Nat)
    (k v : String) (hnd : (updates.map Prod.fst).Nodup) (hmem : (k, v) ∈ updates)
    (him : immOk rows k = true) :
    ∃ e, findRow (dbWriteMany rows updates now) k = some e ∧ e.value = v := by
  induction updates generalizing rows with
  | nil => cases hmem
  | cons p rest ih =>
    obtain ⟨kw, w⟩ := p
    simp only [List.map_cons, List.nodup_cons] at hnd
    rcases List.mem_cons.mp hmem with heq | hrest
    · injection heq with h1 h2
      subst h1
      subst h2
      rw [dbWriteMany, findRow_writeMany_not_mem _ _ _ _ hnd.1]
      exact findRow_writeOne_self rows k v now him
    · have hkne : kw ≠ k := by
        intro hc
        exact hnd.1 (hc ▸ List.mem_map_of_mem Prod.fst hrest)
      rw [dbWriteMany]
      exact ih _ hnd.2 hrest (by rw [immOk_writeOne_other _ _ _ _ _ hkne]; exact him)

theorem dictGet_dbReadAll (rows : List ConfigEntry) (k : String) :
    dictGet (dbReadAll rows) k = (findRow rows k).map (fun e => stripQuotes e.value) := by
  induction rows with
  | nil => rfl
  | cons r rest ih =>
    by_cases hr : r.key = k
    · simp [dbReadAll, dictGet, findRow, hr]
    · simp only [dbReadAll, List.map_cons, dictGet, findRow, hr, if_false]
      exact ih

/-! ### File-store round-trip lemmas -/

theorem lineSafePair_fields (p : List Char × List Char) (h : lineSafePair p = true) :
    noEdgeSpace p.1 = true ∧ '=' ∉ p.1 ∧ '\n' ∉ p.1 ∧ p.1.head? ≠ some '#' ∧
    noEdgeSpace p.2 = true ∧ '\n' ∉ p.2 := by
  unfold lineSafePair at h
  simp only [Bool.and_eq_true] at h
  obtain ⟨⟨⟨⟨⟨h1, h2⟩, h3⟩, h4⟩, h5⟩, h6⟩ := h
  refine ⟨h1, ?_, ?_, ?_, h5, ?_⟩
  · simpa [List.elem_iff] using h2
  · simpa [List.elem_iff] using h3
  · simpa using h4
  · simpa [List.elem_iff] using h6

theorem stripLeft_eq_self_of_head (cs : List Char)
    (h : ∀ c t, cs = c :: t → isPySpace c = false) : stripLeft cs = cs := by
  cases cs with
  | nil => rfl
  | cons c t => simp [stripLeft, List.dropWhile_cons, h c t rfl]

theorem stripRight_eq_self_of_last (cs : List Char)
    (h : ∀ c, cs.getLast? = some c → isPySpace c = false) : stripRight cs = cs := by
  unfold stripRight
  cases hr : cs.reverse with
  | nil =>
    rw [List.reverse_eq_nil_iff] at hr
    simp [hr]
  | cons c t =>
    have hlast : cs.getLast? = some c := by
      rw [← List.head?_reverse, hr, List.head?_cons]
    rw [List.dropWhile_cons]
    simp only [h c hlast, Bool.false_eq_true, if_false]
    simp [← hr]

theorem parseLine_envLine (k v : List Char) (h : lineSafePair (k, v) = true) :
    parseLine (k ++ '=' :: v) = some (k, stripQuotesL v) := by
  obtain ⟨hek, hkeq, hknl, hkhash, hev, hvnl⟩ := lineSafePair_fields (k, v) h
  have hpk : ∀ a ∈ k, notEqChar '=' a = true := by
    intro a ha
    have hane : ¬a = '=' := fun hc => hkeq (hc ▸ ha)
    simp [notEqChar, hane]
  have hstripline : pyStrip (k ++ '=' :: v) = k ++ '=' :: v := by
    unfold pyStrip
    have hleft : stripLeft (k ++ '=' :: v) = k ++ '=' :: v := by
      apply stripLeft_eq_self_of_head
      intro c t hct
      cases k with
      | nil =>
        simp only [List.nil_append] at hct
        injection hct with h1 h2
        rw [← h1]
        decide
      | cons c0 t0 =>
        simp only [List.cons_append] at hct
        injection hct with h1 h2
        rw [← h1]
        exact (noEdgeSpace_split _ hek).1 c0 t0 rfl
    rw [hleft]
    apply stripRight_eq_self_of_last
    intro c hc
    rw [← List.head?_reverse, List.reverse_append, List.reverse_cons] at hc
    cases hvr : v.reverse with
    | nil =>
      rw [hvr] at hc
      simp only [List.nil_append, List.cons_append, List.head?_cons, Option.some.injEq] at hc
      rw [← hc]
      decide
    | cons d t =>
      rw [hvr] at hc
      simp only [List.cons_append, List.head?_cons, Option.some.injEq] at hc
      rw [← hc]
      exact (noEdgeSpace_split v hev).2 d (by rw [← List.head?_reverse, hvr, List.head?_cons])
  have hhash2 : ¬(k ++ '=' :: v).head? = some '#' := by
    cases k with
    | nil =>
      simp only [List.nil_append, List.head?_cons]
      intro hc
      injection hc with h1
      exact absurd h1 (by decide)
    | cons c0 t0 =>
      simp only [List.cons_append, List.head?_cons]
      intro hc
      exact hkhash hc
  have htake : (k ++ '=' :: v).takeWhile (notEqChar '=') = k := by
    rw [takeWhile_append_all _ _ hpk]
    simp [List.takeWhile_cons, notEqChar]
  have hdrop : (k ++ '=' :: v).dropWhile (notEqChar '=') = '=' :: v := by
    rw [dropWhile_append_all _ _ hpk]
    simp [List.dropWhile_cons, notEqChar]
  unfold parseLine
  simp only [hstripline]
  rw [if_neg (by simp), if_neg hhash2, if_pos (by simp), htake, hdrop]
  simp only [List.drop_succ_cons, List.drop_zero]
  rw [pyStrip_of_noEdgeSpace k hek, pyStrip_of_noEdgeSpace v hev]

theorem foldl_parse_nodup (lines : List (List Char)) (acc : List (List Char × List Char))
    (h : (acc.map Prod.fst).Nodup) :
    ((lines.foldl (fun m l =>
      match parseLine l with
      | some kv => dictInsert m kv.1 kv.2
      | none => m) acc).map Prod.fst).Nodup := by
  induction lines generalizing acc with
  | nil => exact h
  | cons l rest ih =>
    simp only [List.foldl_cons]
    cases hp : parseLine l with
    | none => exact ih _ h
    | some kv => exact ih _ (nodup_keys_insert _ _ _ h)

theorem envReadAll_nodup_keys (content : List Char) :
    ((envReadAll content).map Prod.fst).Nodup := by
  unfold envReadAll
  exact foldl_parse_nodup _ _ (by simp)

theorem foldl_parse_envLines (ps : List (List Char × List Char))
    (acc : List (List Char × List Char)) (h : ∀ p ∈ ps, lineSafePair p = true) :
    (ps.map envLine).foldl (fun m l =>
        match parseLine l with
        | some kv => dictInsert m kv.1 kv.2
        | none => m) acc
      = (ps.map (fun p => (p.1, stripQuotesL p.2))).foldl
          (fun m p => dictInsert m p.1 p.2) acc := by
  induction ps generalizing acc with
  | nil => rfl
  | cons p rest ih =>
    simp only [List.map_cons, List.foldl_cons]
    rw [show envLine p = p.1 ++ '=' :: p.2 from rfl,
      parseLine_envLine p.1 p.2 (h p (List.mem_cons_self _ _))]
    exact ih _ (fun q hq => h q (List.mem_cons_of_mem _ hq))

/-- C3 counterexample: writing an already-quoted value through `write_many`
and reading it back with `read_all` loses the quote layer on both backends,
so the read value differs from the (stringified) written value. -/
theorem c3_counterexample :
    dictGet (dbReadAll (dbWriteMany [] [("K", "\"x\"")] 0)) "K" = some "x" ∧
    dictGet (envReadAll (envWriteMany [] [("K".data, "\"x\"".data)])) "K".data
      = some "x".data ∧
    ("x" : String) ≠ "\"x\"" := by
  refine ⟨by decide, by decide, by decide⟩

/-- C3 amended: `write_many` followed by `read_all` returns, for every
written key, the written (stringified) value with one layer of matching
surrounding quotes stripped.  For the table backend this holds whenever the
stored row for the key is not marked immutable; for the file backend it
holds whenever the written pairs and the pairs already parsed from the file
survive the `KEY=VALUE` line format (no newlines, trimmed, no `=` in the
key, key not opening a comment). -/
theorem c3_roundtrip_modulo_quotes
    (rows : List ConfigEntry) (updates : List (String × String)) (now : Nat) (k v : String)
    (hnd : (updates.map Prod.fst).Nodup) (hmem : (k, v) ∈ updates)
    (him : immOk rows k = true)
    (content : List Char) (cupdates : List (List Char × List Char)) (ck cv : List Char)
    (hcnd : (cupdates.map Prod.fst).Nodup) (hcmem : (ck, cv) ∈ cupdates)
    (hsafeCur : ∀ p ∈ envReadAll content, lineSafePair p = true)
    (hsafeUpd : ∀ p ∈ cupdates, lineSafePair p = true) :
    dictGet (dbReadAll (dbWriteMany rows updates now)) k = some (stripQuotes v) ∧
    dictGet (envReadAll (envWriteMany content cupdates)) ck = some (stripQuotesL cv) := by
  constructor
  · obtain ⟨e, he, hv⟩ := dbRoundTrip updates rows now k v hnd hmem him
    rw [dictGet_dbReadAll, he]
    simp [hv]
  · have hmsafe : ∀ p ∈ cupdates.foldl (fun m p => dictInsert m p.1 p.2) (envReadAll content),
        lineSafePair p = true := by
      intro p hp
      rcases mem_foldl_insert _ _ _ hp with h1 | h1
      · exact hsafeCur p h1
      · exact hsafeUpd p h1
    have hmnodup : ((cupdates.foldl (fun m p => dictInsert m p.1 p.2)
        (envReadAll content)).map Prod.fst).Nodup :=
      nodup_keys_foldl_insert _ _ (envReadAll_nodup_keys content)
    have hget : dictGet (cupdates.foldl (fun m p => dictInsert m p.1 p.2)
        (envReadAll content)) ck = some cv :=
      dictGet_foldl_insert_mem cupdates (envReadAll content) ck cv hcnd hcmem
    have hMmem : (ck, cv) ∈ cupdates.foldl (fun m p => dictInsert m p.1 p.2)
        (envReadAll content) := dictGet_some_mem _ _ _ hget
    have hwm : envWriteMany content cupdates
        = joinLines ((cupdates.foldl (fun m p => dictInsert m p.1 p.2)
            (envReadAll content)).map envLine) := rfl
    rw [hwm]
    have hlines : splitLines (joinLines ((cupdates.foldl (fun m p => dictInsert m p.1 p.2)
        (envReadAll content)).map envLine))
        = (cupdates.foldl (fun m p => dictInsert m p.1 p.2)
            (envReadAll content)).map envLine := by
      apply splitLines_joinLines
      intro l hl
      obtain ⟨p, hp, hpl⟩ := List.mem_map.mp hl
      obtain ⟨-, -, hknl, -, -, hvnl⟩ := lineSafePair_fields p (hmsafe p hp)
      subst hpl
      constructor
      · show p.1 ++ '=' :: p.2 ≠ []
        simp
      · show '\n' ∉ p.1 ++ '=' :: p.2
        simp only [List.mem_append, List.mem_cons, not_or]
        exact ⟨hknl, by decide, hvnl⟩
    have hunfold : ∀ cs : List Char, envReadAll cs = (splitLines cs).foldl (fun m l =>
        match parseLine l with
        | some kv => dictInsert m kv.1 kv.2
        | none => m) [] := fun _ => rfl
    rw [hunfold, hlines, foldl_parse_envLines _ [] hmsafe]
    apply dictGet_foldl_insert_mem
    · have hkeys : (((cupdates.foldl (fun m p => dictInsert m p.1 p.2)
          (envReadAll content)).map (fun p => (p.1, stripQuotesL p.2))).map Prod.fst)
          = ((cupdates.foldl (fun m p => dictInsert m p.1 p.2)
              (envReadAll content)).map Prod.fst) := by
        rw [List.map_map]
        rfl
      rw [hkeys]
      exact hmnodup
    · exact List.mem_map.mpr ⟨(ck, cv), hMmem, rfl⟩

/-- C3 witness: a fresh one-key write round-trips (modulo quote stripping,
trivial here) on both backends. -/
theorem c3_roundtrip_modulo_quotes_witness :
    dictGet (dbReadAll (dbWriteMany [] [("K", "v")] 0)) "K" = some (stripQuotes "v") ∧
    dictGet (envReadAll (envWriteMany [] [("K".data, "v".data)])) "K".data
      = some (stripQuotesL "v".data) :=
  c3_roundtrip_modulo_quotes [] [("K", "v")] 0 "K" "v" (by decide) (by decide) rfl
    [] [("K".data, "v".data)] "K".data "v".data (by decide) (by decide)
    (by intro p hp; cases hp) (by decide)
